import Mathlib

/-!
# Verification of the retrieval and ranking engine of `git-llm-analyzer`

This file gives a shallow embedding, in Lean 4, of the retrieval core of the
repository (the functions `clean_and_tokenize` and `format_documents` of
`src/utils.py`, `load_and_index_files` and `search_documents` of
`src/file_processing.py`, together with the behaviour of the external
collaborators they invoke: `rank_bm25.BM25Okapi`,
`sklearn.feature_extraction.text.TfidfVectorizer` /
`sklearn.metrics.pairwise.cosine_similarity`, and langchain's
`RecursiveCharacterTextSplitter`), and proves or refutes the specification
claims about it.

Modelling conventions:
* Python strings are Lean `String`s processed as `List Char`.  Character
  classes (`\s`, `\w`, `\d`, `str.lower`, `str.strip`) are modelled with their
  ASCII semantics; the Python originals are Unicode-aware, which does not
  affect any of the inputs considered here.
* Python floats are idealised as real numbers `ℝ`; score computations are
  therefore `noncomputable` (they contain `Real.log` / `Real.sqrt`), while all
  of the string/list layer is executable.
* Fallible Python code (statements that can raise) is modelled with
  `Except String`; the error string names the Python exception.
* Each regex substitution of `clean_and_tokenize` is implemented as a
  single-pass structural scan that realises exactly the leftmost,
  non-overlapping match semantics of `re.sub` for that particular pattern.
-/

/-- Python's `\s` character class (ASCII part): space, tab, newline, carriage
return, vertical tab, form feed. -/
def isSpaceChar (c : Char) : Bool :=
  c = ' ' || c = '\t' || c = '\n' || c = '\r' || c = '\x0b' || c = '\x0c'

/-- Python's `\w` character class (ASCII part): letters, digits and the
underscore. -/
def isWordChar (c : Char) : Bool :=
  c.isAlphanum || c = '_'

/-- Python's `str.lower` (ASCII part), applied characterwise. -/
def pyLowerStr (s : String) : String :=
  String.mk (s.data.map Char.toLower)

/-- Python's `str.strip()` (ASCII whitespace): drop leading and trailing
whitespace characters. -/
def pyStrip (l : List Char) : List Char :=
  ((l.dropWhile isSpaceChar).reverse.dropWhile isSpaceChar).reverse

/-- Model of `re.sub(r"\s+", " ", text)`: collapse every maximal run of whitespace into
a single space.  The Boolean records whether the previous character belonged
to a whitespace run that has already emitted its single space. -/
def collapseWsAux : Bool → List Char → List Char
  | _, [] => []
  | prevSpace, c :: rest =>
    if isSpaceChar c then
      if prevSpace then collapseWsAux true rest
      else ' ' :: collapseWsAux true rest
    else c :: collapseWsAux false rest

/-- Model of `re.sub(r"\s+", " ", text)`. -/
def collapseWs (l : List Char) : List Char := collapseWsAux false l

/-- Model of `re.sub(r"<[^>]*>", "", text)`.  A match runs from a `<` to the first
subsequent `>` (the class `[^>]` also matches newlines).  While scanning, the
`Option` state holds the characters seen since an as yet unclosed `<`
(in reverse); if the input ends before a `>` is found, no match started at
that `<` (nor at any `<` inside the pending buffer, since the buffer contains
no `>`), so the pending text is emitted verbatim. -/
def removeTagsAux : Option (List Char) → List Char → List Char
  | none, [] => []
  | some buf, [] => '<' :: buf.reverse
  | none, c :: rest =>
    if c = '<' then removeTagsAux (some []) rest
    else c :: removeTagsAux none rest
  | some buf, c :: rest =>
    if c = '>' then removeTagsAux none rest
    else removeTagsAux (some (c :: buf)) rest

/-- Model of `re.sub(r"<[^>]*>", "", text)`. -/
def removeTags (l : List Char) : List Char := removeTagsAux none l

/-- Model of `re.sub(r"\[.*?\]", "", text)`.  A (lazy) match runs from a `[` to the
first subsequent `]`, and `.` does not match a newline: when a newline is met
while a `[` is pending, neither that `[` nor any `[` inside the pending
buffer (which contains no `]`) can start a match, so the pending text is
emitted verbatim and scanning continues after the newline. -/
def removeBracketsAux : Option (List Char) → List Char → List Char
  | none, [] => []
  | some buf, [] => '[' :: buf.reverse
  | none, c :: rest =>
    if c = '[' then removeBracketsAux (some []) rest
    else c :: removeBracketsAux none rest
  | some buf, c :: rest =>
    if c = ']' then removeBracketsAux none rest
    else if c = '\n' then ('[' :: buf.reverse) ++ '\n' :: removeBracketsAux none rest
    else removeBracketsAux (some (c :: buf)) rest

/-- Model of `re.sub(r"\[.*?\]", "", text)`. -/
def removeBrackets (l : List Char) : List Char := removeBracketsAux none l

/-- Model of `re.sub(r"\(.*?\)", "", text)`, same shape as `removeBrackets`. -/
def removeParensAux : Option (List Char) → List Char → List Char
  | none, [] => []
  | some buf, [] => '(' :: buf.reverse
  | none, c :: rest =>
    if c = '(' then removeParensAux (some []) rest
    else c :: removeParensAux none rest
  | some buf, c :: rest =>
    if c = ')' then removeParensAux none rest
    else if c = '\n' then ('(' :: buf.reverse) ++ '\n' :: removeParensAux none rest
    else removeParensAux (some (c :: buf)) rest

/-- Model of `re.sub(r"\(.*?\)", "", text)`. -/
def removeParens (l : List Char) : List Char := removeParensAux none l

/-- Strip the literal sequence `p` from the front of `l`, returning the
remainder on success. -/
def dropSeq : List Char → List Char → Option (List Char)
  | [], l => some l
  | _ :: _, [] => none
  | p :: ps, c :: cs => if c = p then dropSeq ps cs else none

/-- Match `(?:http|ftp)s?://` at the head of `l`, returning the length of the
matched scheme together with the remainder.  The four literal alternatives are
mutually exclusive, so the order of the attempts is irrelevant. -/
def schemeDrop (l : List Char) : Option (Nat × List Char) :=
  match dropSeq ['h','t','t','p','s',':','/','/'] l with
  | some r => some (8, r)
  | none =>
  match dropSeq ['h','t','t','p',':','/','/'] l with
  | some r => some (7, r)
  | none =>
  match dropSeq ['f','t','p','s',':','/','/'] l with
  | some r => some (8, r)
  | none =>
  match dropSeq ['f','t','p',':','/','/'] l with
  | some r => some (7, r)
  | none => none

/-- Does a match of `\b(?:http|ftp)s?://\S+` start exactly at the head of `l`
(the word-boundary condition on the previous character being checked by the
caller)?  `\S+` requires at least one non-space character after the scheme. -/
def urlHeadMatch (l : List Char) : Bool :=
  match schemeDrop l with
  | some (_, c :: _) => ¬ isSpaceChar c
  | some (_, []) => false
  | none => false

/-- Model of `re.sub(r"\b(?:http|ftp)s?://\S+", "", text)`, as a single scan.
State: `skip`-count of scheme characters still to be discarded, a flag for
"currently discarding the `\S+` run", and the word-ness of the previous
character (for `\b`).  After a whole match is discarded the next character is
whitespace or the end of the input, so word-boundary tracking resumes
correctly at the space. -/
def removeUrlsGo : Nat → Bool → Bool → List Char → List Char
  | _, _, _, [] => []
  | n+1, skip, prevW, _ :: rest => removeUrlsGo n skip prevW rest
  | 0, true, _, c :: rest =>
    if isSpaceChar c then c :: removeUrlsGo 0 false false rest
    else removeUrlsGo 0 true true rest
  | 0, false, prevW, c :: rest =>
    if ¬ prevW && urlHeadMatch (c :: rest) then
      match schemeDrop (c :: rest) with
      | some (n, _) => removeUrlsGo (n - 1) true true rest
      | none => c :: removeUrlsGo 0 false (isWordChar c) rest
    else c :: removeUrlsGo 0 false (isWordChar c) rest

/-- Model of `re.sub(r"\b(?:http|ftp)s?://\S+", "", text)`. -/
def removeUrls (l : List Char) : List Char := removeUrlsGo 0 false false l

/-- Model of `re.sub(r"\W", " ", text)`: every non-word character becomes a space. -/
def subNonWord (l : List Char) : List Char :=
  l.map (fun c => if isWordChar c then c else ' ')

/-- Model of `re.sub(r"\d+", "", text)`: removing every maximal digit run is the same
as removing every digit character. -/
def removeDigits (l : List Char) : List Char :=
  l.filter (fun c => ¬ c.isDigit)

/-- Split into maximal runs of non-space characters; the accumulator holds
the current word reversed. -/
def splitWordsAux : List Char → List Char → List (List Char)
  | acc, [] => if acc = [] then [] else [acc.reverse]
  | acc, c :: rest =>
    if isSpaceChar c then
      if acc = [] then splitWordsAux [] rest
      else acc.reverse :: splitWordsAux [] rest
    else splitWordsAux (c :: acc) rest

/-- Model of `nltk.word_tokenize`, modelled on its actual input domain here: by the
time it is called the text consists only of word characters and spaces (no
punctuation, no sentence breaks), on which the Punkt/Treebank tokenizer
coincides with whitespace splitting. -/
def word_tokenize (l : List Char) : List (List Char) := splitWordsAux [] l

/-- Model of `clean_and_tokenize` of `src/utils.py`: the six `re.sub` passes, then
`str.lower`, then `nltk.word_tokenize`. -/
def clean_and_tokenize (text : String) : List String :=
  let t := collapseWs text.data
  let t := removeTags t
  let t := removeBrackets t
  let t := removeParens t
  let t := removeUrls t
  let t := subNonWord t
  let t := removeDigits t
  let t := t.map Char.toLower
  (word_tokenize t).map (fun w => String.mk w)

/-- Does any substring of `l` match the HTML-tag pattern `<[^>]*>`?  A match
exists exactly when some `<` is followed (anywhere later) by a `>`. -/
def hasTagMatch : List Char → Bool
  | [] => false
  | c :: rest => (c = '<' && rest.any (fun d => d = '>')) || hasTagMatch rest

/-- Does any substring of `l` match the bracketed-aside pattern `\[.*?\]`?
A match exists exactly when some `[` is followed by a `]` with no newline in
between. -/
def hasBracketMatch : List Char → Bool
  | [] => false
  | c :: rest =>
    (c = '[' && ((rest.takeWhile (fun d => d ≠ '\n')).any (fun d => d = ']')))
      || hasBracketMatch rest

/-- Does any substring of `l` match the parenthetical pattern `\(.*?\)`? -/
def hasParenMatch : List Char → Bool
  | [] => false
  | c :: rest =>
    (c = '(' && ((rest.takeWhile (fun d => d ≠ '\n')).any (fun d => d = ')')))
      || hasParenMatch rest

/-- Does any position of `l` start a match of the URL pattern
`\b(?:http|ftp)s?://\S+` (given the word-ness of the character preceding
`l`)? -/
def hasUrlMatchGo : Bool → List Char → Bool
  | _, [] => false
  | prevW, c :: rest =>
    (¬ prevW && urlHeadMatch (c :: rest)) || hasUrlMatchGo (isWordChar c) rest

/-- Does any substring of `l` (at a word boundary) match the URL pattern? -/
def hasUrlMatch (l : List Char) : Bool := hasUrlMatchGo false l

/-! ## Documents and the chunker

`load_and_index_files` splits each loaded document with langchain's
`RecursiveCharacterTextSplitter(chunk_size=3000, chunk_overlap=200)`: default
separators `["\n\n", "\n", " ", ""]`, `keep_separator=True` (separators are
kept, attached to the front of the following piece), chunks are joined with
the empty string and stripped of surrounding whitespace, and empty chunks are
dropped.  The recursive `_split_text` only ever descends along suffixes of the
fixed separator list, so the recursion is unrolled into one function per
suffix. -/

/-- A langchain `Document`, restricted to the fields the program uses:
`page_content` и metadata keys `source` and `file_id`. -/
structure Doc where
  page_content : String
  source : String
  file_id : String
deriving DecidableEq, Repr

instance : Inhabited Doc := ⟨⟨"", "", ""⟩⟩

/-- Concatenation of a list of character lists. -/
def concatL (L : List (List Char)) : List Char := L.foldr (· ++ ·) []

/-- Model of `re.split("(sep)", text)` (for a non-empty literal separator), with the
separator pieces already re-attached to the front of the following fragment
(`keep_separator=True`).  One character is consumed per step; after a
separator is recognised at the current position, `skip` counts the remaining
separator characters to pass over.  Produces the fragment list
`[p0, p1, ..., pk]` with `text = p0 ++ sep ++ p1 ++ ... ++ sep ++ pk`;
the caller re-attaches `sep`. -/
def splitGo (sep : List Char) : Nat → List Char → List Char → List (List Char)
  | 0, acc, [] => [acc.reverse]
  | _+1, acc, [] => [acc.reverse]
  | 0, acc, c :: rest =>
    match dropSeq sep (c :: rest) with
    | some _ => acc.reverse :: splitGo sep (sep.length - 1) [] rest
    | none => splitGo sep 0 (c :: acc) rest
  | n+1, acc, _ :: rest => splitGo sep n acc rest

/-- Model of `_split_text_with_regex(text, sep, keep_separator=True)`: the fragments
with separators re-attached in front, empty pieces filtered out; for the empty
separator, the list of single characters. -/
def splitKeepSep (sep : List Char) (text : List Char) : List (List Char) :=
  if sep = [] then text.map (fun c => [c])
  else
    match splitGo sep 0 [] text with
    | [] => []
    | p :: ps => (p :: ps.map (fun q => sep ++ q)).filter (fun q => q ≠ [])

/-- Model of `_join_docs(docs, "")`: join (the merge separator is `""` because
`keep_separator=True`), strip, and drop the chunk when nothing remains. -/
def joinDocs (docs : List (List Char)) : Option (List Char) :=
  let text := pyStrip (concatL docs)
  if text = [] then none else some text

/-- The inner `while` of `_merge_splits` (with separator length 0): pop
leading fragments while the running total exceeds the overlap bound, or while
it would still overflow the chunk size together with the incoming fragment. -/
def popOverlap (dLen : Nat) : List (List Char) → Nat → List (List Char) × Nat
  | [], total => ([], total)
  | c :: rest, total =>
    if total > 200 ∨ (total + dLen > 3000 ∧ total > 0) then
      popOverlap dLen rest (total - c.length)
    else (c :: rest, total)

/-- The fragment loop of `_merge_splits(splits, "")` with
`chunk_size=3000, chunk_overlap=200`: `pending` are finished chunks, `cur`
the fragments of the chunk being assembled, `total` their combined length. -/
def mergeSplitsGo : List (List Char) → List (List Char) → Nat → List (List Char) →
    List (List Char)
  | pending, cur, _, [] => pending ++ (joinDocs cur).toList
  | pending, cur, total, d :: rest =>
    if total + d.length > 3000 ∧ cur ≠ [] then
      let pending' := pending ++ (joinDocs cur).toList
      let p := popOverlap d.length cur total
      mergeSplitsGo pending' (p.1 ++ [d]) (p.2 + d.length) rest
    else
      mergeSplitsGo pending (cur ++ [d]) (total + d.length) rest

/-- Model of `_merge_splits(splits, "")`. -/
def mergeSplits (splits : List (List Char)) : List (List Char) :=
  mergeSplitsGo [] [] 0 splits

/-- An oversized fragment is handed to the next separator level, or emitted
as is when no separator remains (`if not new_separators: final_chunks.append(s)
else: ... _split_text(s, new_separators)`). -/
def deeperApply : Option (List Char → List (List Char)) → List Char → List (List Char)
  | none, s => [s]
  | some f, s => f s

/-- The fragment-processing loop of `_split_text`: fragments shorter than the
chunk size accumulate in `good` and are merged; an oversized fragment flushes
the accumulated ones and is handed to the next separator level. -/
def processSplits (deeper : Option (List Char → List (List Char))) :
    List (List Char) → List (List Char) → List (List Char)
  | good, [] => if good = [] then [] else mergeSplits good
  | good, s :: rest =>
    if s.length < 3000 then processSplits deeper (good ++ [s]) rest
    else
      (if good = [] then [] else mergeSplits good)
        ++ deeperApply deeper s
        ++ processSplits deeper [] rest

/-- Model of `_split_text(text, [""])`: the empty separator matches everywhere, the
fragments are the single characters, and no deeper separator exists. -/
def splitTextEmpty (text : List Char) : List (List Char) :=
  processSplits none [] (splitKeepSep [] text)

/-- Model of `_split_text(text, [" ", ""])`. -/
def splitTextSpace (text : List Char) : List (List Char) :=
  if (splitGo [' '] 0 [] text).length ≠ 1 then
    processSplits (some splitTextEmpty) [] (splitKeepSep [' '] text)
  else splitTextEmpty text

/-- Model of `_split_text(text, ["\n", " ", ""])`. -/
def splitTextNl (text : List Char) : List (List Char) :=
  if (splitGo ['\n'] 0 [] text).length ≠ 1 then
    processSplits (some splitTextSpace) [] (splitKeepSep ['\n'] text)
  else splitTextSpace text

/-- Model of `_split_text(text, ["\n\n", "\n", " ", ""])` — the entry point of
`RecursiveCharacterTextSplitter.split_text` for the default separators.
`re.search(sep, text)` succeeds exactly when splitting on `sep` produces more
than one fragment. -/
def splitTextPara (text : List Char) : List (List Char) :=
  if (splitGo ['\n','\n'] 0 [] text).length ≠ 1 then
    processSplits (some splitTextNl) [] (splitKeepSep ['\n','\n'] text)
  else splitTextNl text

/-- Model of `RecursiveCharacterTextSplitter(chunk_size=3000, chunk_overlap=200)
.split_text`, at the `String` level. -/
def split_text (s : String) : List String :=
  (splitTextPara s.data).map (fun c => String.mk c)

/-- Model of `text_splitter.split_documents([original_doc])` followed by the metadata
reset of `load_and_index_files` (which copies `file_id` and `source` from the
original document — the values the copied metadata already had), extended over
the document list. -/
def splitDocuments (docs : List Doc) : List Doc :=
  docs.flatMap (fun d =>
    (split_text d.page_content).map (fun c => { d with page_content := c }))

/-! ## The lexical index: `rank_bm25.BM25Okapi`

`BM25Okapi(corpus, k1=1.5, b=0.75, epsilon=0.25)` stores per-document term
frequencies, document lengths, the average document length, and an idf table
over the corpus vocabulary.  All of those are functions of the tokenized
corpus, so the state is modelled as the tokenized corpus itself and each
derived quantity as a function of it (same values as the Python attributes).
Construction raises `ZeroDivisionError` when the corpus is empty
(`avgdl = num_doc / corpus_size`) or when it contains no token at all
(`average_idf = idf_sum / len(idf)` over an empty idf table). -/

/-- The BM25 index built by `load_and_index_files`. -/
structure BM25State where
  corpus : List (List String)
deriving DecidableEq

/-- The keys of the `nd`/`idf` dictionaries: every word of the corpus. -/
def vocabList (corpus : List (List String)) : List String :=
  (corpus.flatMap id).dedup

/-- Model of `nd[w]`: the number of documents containing `w`. -/
def ndCount (corpus : List (List String)) (w : String) : Nat :=
  (corpus.filter (fun d => decide (w ∈ d))).length

/-- Model of `self.avgdl = num_doc / self.corpus_size`. -/
noncomputable def avgdl (corpus : List (List String)) : ℝ :=
  ((corpus.map List.length).sum : ℕ) / (corpus.length : ℝ)

/-- Model of `idf = math.log(self.corpus_size - freq + 0.5) - math.log(freq + 0.5)`. -/
noncomputable def rawIdf (n ndw : Nat) : ℝ :=
  Real.log ((n : ℝ) - (ndw : ℝ) + 0.5) - Real.log ((ndw : ℝ) + 0.5)

/-- Model of `self.average_idf = idf_sum / len(self.idf)`. -/
noncomputable def averageIdf (corpus : List (List String)) : ℝ :=
  ((vocabList corpus).map (fun w => rawIdf corpus.length (ndCount corpus w))).sum
    / ((vocabList corpus).length : ℝ)

/-- Model of `self.idf.get(q) or 0`: the idf table after `_calc_idf`, which replaces
negative idf values by `eps = epsilon * average_idf`; words outside the
vocabulary score 0. -/
noncomputable def bm25Idf (corpus : List (List String)) (w : String) : ℝ :=
  if w ∈ vocabList corpus then
    if rawIdf corpus.length (ndCount corpus w) < 0 then 0.25 * averageIdf corpus
    else rawIdf corpus.length (ndCount corpus w)
  else 0

/-- One entry of `get_scores`: the accumulated contribution of every query
token `q` to the score of document `doc`,
`idf(q) * q_freq * (k1 + 1) / (q_freq + k1 * (1 - b + b * doc_len / avgdl))`
with `k1 = 1.5`, `b = 0.75`. -/
noncomputable def bm25DocScore (corpus : List (List String)) (query : List String)
    (doc : List String) : ℝ :=
  (query.map (fun q =>
    bm25Idf corpus q * ((doc.count q : ℝ) * (1.5 + 1)
      / ((doc.count q : ℝ) + 1.5 * (1 - 0.75 + 0.75 * (doc.length : ℝ) / avgdl corpus))))).sum

/-- Model of `BM25Okapi.get_scores(query)`: one score per corpus document, in corpus
order. -/
noncomputable def get_scores (st : BM25State) (query : List String) : List ℝ :=
  st.corpus.map (bm25DocScore st.corpus query)

/-- Model of `BM25Okapi(tokenized_documents)`: fails with `ZeroDivisionError` on an
empty corpus (computing `avgdl`) and on a corpus without any token
(computing `average_idf`). -/
def BM25Okapi (tokenizedDocuments : List (List String)) : Except String BM25State :=
  if tokenizedDocuments = [] then
    .error "ZeroDivisionError: division by zero (avgdl)"
  else if vocabList tokenizedDocuments = [] then
    .error "ZeroDivisionError: division by zero (average_idf)"
  else .ok ⟨tokenizedDocuments⟩

/-! ## The vector index: `TfidfVectorizer` + `cosine_similarity`

`TfidfVectorizer(tokenizer=clean_and_tokenize, lowercase=True,
stop_words="english", use_idf=True, smooth_idf=True, sublinear_tf=True)` with
the remaining parameters at their defaults (`norm="l2"`,
`ngram_range=(1, 1)`).  Its analyzer lowercases the raw text, applies the
custom tokenizer, and drops English stop words.  `fit_transform` raises
`ValueError` when the resulting vocabulary is empty.  Sparse rows are
modelled as finitely supported functions `String → ℝ`; all inner products and
norms range over the (finite, duplicate-free) vocabulary list. -/

/-- Model of `sklearn.feature_extraction.text.ENGLISH_STOP_WORDS`. -/
def englishStopWords : List String :=
  ["a", "about", "above", "across", "after", "afterwards", "again", "against",
   "all", "almost", "alone", "along", "already", "also", "although", "always",
   "am", "among", "amongst", "amoungst", "amount", "an", "and", "another",
   "any", "anyhow", "anyone", "anything", "anyway", "anywhere", "are",
   "around", "as", "at", "back", "be", "became", "because", "become",
   "becomes", "becoming", "been", "before", "beforehand", "behind", "being",
   "below", "beside", "besides", "between", "beyond", "bill", "both",
   "bottom", "but", "by", "call", "can", "cannot", "cant", "co", "con",
   "could", "couldnt", "cry", "de", "describe", "detail", "do", "done",
   "down", "due", "during", "each", "eg", "eight", "either", "eleven",
   "else", "elsewhere", "empty", "enough", "etc", "even", "ever", "every",
   "everyone", "everything", "everywhere", "except", "few", "fifteen",
   "fifty", "fill", "find", "fire", "first", "five", "for", "former",
   "formerly", "forty", "found", "four", "from", "front", "full", "further",
   "get", "give", "go", "had", "has", "hasnt", "have", "he", "hence", "her",
   "here", "hereafter", "hereby", "herein", "hereupon", "hers", "herself",
   "him", "himself", "his", "how", "however", "hundred", "i", "ie", "if",
   "in", "inc", "indeed", "interest", "into", "is", "it", "its", "itself",
   "keep", "last", "latter", "latterly", "least", "less", "ltd", "made",
   "many", "may", "me", "meanwhile", "might", "mill", "mine", "more",
   "moreover", "most", "mostly", "move", "much", "must", "my", "myself",
   "name", "namely", "neither", "never", "nevertheless", "next", "nine",
   "no", "nobody", "none", "noone", "nor", "not", "nothing", "now",
   "nowhere", "of", "off", "often", "on", "once", "one", "only", "onto",
   "or", "other", "others", "otherwise", "our", "ours", "ourselves", "out",
   "over", "own", "part", "per", "perhaps", "please", "put", "rather", "re",
   "same", "see", "seem", "seemed", "seeming", "seems", "serious", "several",
   "she", "should", "show", "side", "since", "sincere", "six", "sixty",
   "so", "some", "somehow", "someone", "something", "sometime", "sometimes",
   "somewhere", "still", "such", "system", "take", "ten", "than", "that",
   "the", "their", "them", "themselves", "then", "thence", "there",
   "thereafter", "thereby", "therefore", "therein", "thereupon", "these",
   "they", "thick", "thin", "third", "this", "those", "though", "three",
   "through", "throughout", "thru", "thus", "to", "together", "too", "top",
   "toward", "towards", "twelve", "twenty", "two", "un", "under", "until",
   "up", "upon", "us", "very", "via", "was", "we", "well", "were", "what",
   "whatever", "when", "whence", "whenever", "where", "whereafter",
   "whereas", "whereby", "wherein", "whereupon", "wherever", "whether",
   "which", "while", "whither", "who", "whoever", "whole", "whom", "whose",
   "why", "will", "with", "within", "without", "would", "yet", "you",
   "your", "yours", "yourself", "yourselves"]

/-- The vectorizer's analyzer: lowercase the raw text, tokenize it with
`clean_and_tokenize`, drop English stop words. -/
def analyzeText (s : String) : List String :=
  (clean_and_tokenize (pyLowerStr s)).filter (fun t => ¬ decide (t ∈ englishStopWords))

/-- Lexicographic comparison of character lists (codepoint order), the order
Python uses on (ASCII) strings. -/
def charListLe : List Char → List Char → Bool
  | [], _ => true
  | _ :: _, [] => false
  | a :: as, b :: bs => if a < b then true else if b < a then false else charListLe as bs

/-- Insert into a sorted list (executable insertion sort, used where a
sorted list must be evaluated on concrete input). -/
def orderedInsertB (le : String → String → Bool) (a : String) :
    List String → List String
  | [] => [a]
  | b :: l => if le a b then a :: b :: l else b :: orderedInsertB le a l

/-- Executable insertion sort on strings. -/
def insertionSortB (le : String → String → Bool) : List String → List String
  | [] => []
  | a :: l => orderedInsertB le a (insertionSortB le l)

/-- The fitted vocabulary: the set of analyzed tokens of all documents,
sorted alphabetically (sklearn sorts its feature names). -/
def tfidfVocab (documents : List Doc) : List String :=
  insertionSortB (fun a b => charListLe a.data b.data)
    ((documents.flatMap (fun d => analyzeText d.page_content)).dedup)

/-- The document frequency of term `t`. -/
def dfCount (documents : List Doc) (t : String) : Nat :=
  (documents.filter (fun d => decide (t ∈ analyzeText d.page_content))).length

/-- The smoothed idf: `ln((1 + n) / (1 + df)) + 1`. -/
noncomputable def tfidfIdfVal (n df : Nat) : ℝ :=
  Real.log ((1 + (n : ℝ)) / (1 + (df : ℝ))) + 1

/-- The unnormalized tf-idf row of a token list: sublinear term frequency
(`1 + ln tf` on nonzero counts) times the smoothed idf; terms outside the
fitted vocabulary have no feature (this is how `transform` drops unseen query
terms). -/
noncomputable def tfidfRawVec (documents : List Doc) (tokens : List String) :
    String → ℝ :=
  fun t =>
    if t ∈ tfidfVocab documents then
      if tokens.count t = 0 then 0
      else (1 + Real.log (tokens.count t : ℝ)) * tfidfIdfVal documents.length (dfCount documents t)
    else 0

/-- The inner product of two rows over the vocabulary. -/
noncomputable def dotOver (vocab : List String) (x y : String → ℝ) : ℝ :=
  (vocab.map (fun t => x t * y t)).sum

/-- The l2 norm of a row over the vocabulary. -/
noncomputable def l2norm (vocab : List String) (x : String → ℝ) : ℝ :=
  Real.sqrt (dotOver vocab x x)

/-- Model of `sklearn.preprocessing.normalize` on one row: rows of norm zero are kept
unchanged. -/
noncomputable def l2normalize (vocab : List String) (x : String → ℝ) : String → ℝ :=
  fun t => if l2norm vocab x = 0 then x t else x t / l2norm vocab x

/-- Model of `cosine_similarity` of two rows: it l2-normalizes both operands and takes
their inner product. -/
noncomputable def cosineSimilarityVec (vocab : List String) (x y : String → ℝ) : ℝ :=
  dotOver vocab (l2normalize vocab x) (l2normalize vocab y)

/-- A row of `tfidf_matrix = tfidf_vectorizer.fit_transform([...])` (already
l2-normalized). -/
noncomputable def tfidfDocRow (documents : List Doc) (d : Doc) : String → ℝ :=
  l2normalize (tfidfVocab documents) (tfidfRawVec documents (analyzeText d.page_content))

/-- Model of `query_tfidf = tfidf_vectorizer.transform([query])` (l2-normalized;
query terms outside the fitted vocabulary are dropped). -/
noncomputable def tfidfQueryRow (documents : List Doc) (q : String) : String → ℝ :=
  l2normalize (tfidfVocab documents) (tfidfRawVec documents (analyzeText q))

/-- One entry of
`cosine_similarity(query_tfidf, tfidf_matrix).flatten()`. -/
noncomputable def cosineScoreDoc (query : String) (documents : List Doc) (d : Doc) : ℝ :=
  cosineSimilarityVec (tfidfVocab documents) (tfidfQueryRow documents query)
    (tfidfDocRow documents d)

/-- Model of `cosine_sim_scores`: one cosine score per document, in document order. -/
noncomputable def cosineSimScores (query : String) (documents : List Doc) : List ℝ :=
  documents.map (cosineScoreDoc query documents)

/-! ## The hybrid ranker and `search_documents` -/

/-- Model of `combined_scores = bm25_scores * 0.5 + cosine_sim_scores * 0.5`
(elementwise over two arrays of equal length). -/
noncomputable def combinedScores (bm cos : List ℝ) : List ℝ :=
  List.zipWith (fun a b => a * 0.5 + b * 0.5) bm cos

/-- Model of `combined_scores.argsort()[::-1]`: the indices `0 .. n-1` sorted by score
ascending, then reversed.  numpy's quicksort is not stable, so the order of
tied indices is unspecified; the model uses a stable sort.  The final search
output is independent of this choice because the subsequent `set()` collapses
the order entirely (`pySetList_argsortDesc` below). -/
noncomputable def argsortDesc (scores : List ℝ) : List Nat :=
  (List.insertionSort (fun i j => scores.getD i 0 ≤ scores.getD j 0)
    (List.range scores.length)).reverse

/-- Model of `list(set(l))` under CPython semantics for the lists arising here: the
elements are exactly the integers `0 .. n-1` (in some order), each hashes to
itself, and the hash table is larger than `n`, so insertion is collision-free
and iteration visits the slots — hence the elements — in ascending order.
The model deduplicates (keeping first occurrences) and sorts ascending. -/
def pySetList (l : List Nat) : List Nat :=
  List.insertionSort (· ≤ ·) l.dedup

/-- Model of `unique_top_document_indices = list(set(combined_scores.argsort()[::-1]))[:n_results]`. -/
noncomputable def uniqueTopDocumentIndices (combined : List ℝ) (nResults : Nat) :
    List Nat :=
  (pySetList (argsortDesc combined)).take nResults

/-- Model of `search_documents(query, index, documents, n_results=5)` of
`src/file_processing.py`.  Failure modes of the Python code, in evaluation
order: `index.get_scores` on a `None` index raises `AttributeError`;
`fit_transform` raises `ValueError` when the corpus yields an empty
vocabulary; the elementwise score combination raises `ValueError` when the
two score arrays have different lengths (numpy would broadcast a length-one
operand instead of raising, but the program always passes the index built
over `documents` itself, for which the lengths are equal, so that case is
unreachable).  Indices produced by `argsort` are always in range, so
`documents[i]` is total here (`List.getD`). -/
noncomputable def search_documents (query : String) (index : Option BM25State)
    (documents : List Doc) (nResults : Nat := 5) : Except String (List Doc) :=
  match index with
  | none => .error "AttributeError: NoneType object has no attribute get_scores"
  | some st =>
    let queryTokens := clean_and_tokenize query
    let bm25Scores := get_scores st queryTokens
    if tfidfVocab documents = [] then
      .error "ValueError: empty vocabulary; perhaps the documents only contain stop words"
    else
      let cosScores := cosineSimScores query documents
      if bm25Scores.length ≠ cosScores.length then
        .error "ValueError: operands could not be broadcast together"
      else
        let combined := combinedScores bm25Scores cosScores
        .ok ((uniqueTopDocumentIndices combined nResults).map
          (fun i => documents.getD i default))

/-! ## `load_and_index_files` and the context assembler -/

/-- The extension-to-count table assembled while loading files. -/
abbrev FileTypeCounts := List (String × Nat)

/-- Model of `load_and_index_files(repo_path)`, modelled from the point where the
documents have been loaded: directory traversal, file parsing, relative-path
rewriting, `uuid4` assignment and extension counting are I/O and enter the
model as the loaded document list (in `documents_dict` insertion order) and
the computed `file_type_counts`.  The function chunks every document, builds
the BM25 index over the tokenized chunks when any chunk exists (`None`
otherwise), and returns the index, the chunk list, the counts, and one source
path per chunk.  A `ZeroDivisionError` escaping `BM25Okapi` propagates. -/
def load_and_index_files (fileTypeCounts : FileTypeCounts) (docs : List Doc) :
    Except String (Option BM25State × List Doc × FileTypeCounts × List String) :=
  let split_documents := splitDocuments docs
  if split_documents = [] then
    .ok (none, split_documents, fileTypeCounts, split_documents.map (·.source))
  else
    match BM25Okapi (split_documents.map (fun d => clean_and_tokenize d.page_content)) with
    | .error e => .error e
    | .ok idx =>
      .ok (some idx, split_documents, fileTypeCounts, split_documents.map (·.source))

/-- Model of `os.path.basename` (posix): the part after the last `/`. -/
def basename (p : String) : String :=
  String.mk ((p.data.reverse.takeWhile (fun c => c ≠ '/')).reverse)

/-- Model of `format_documents(documents)` of `src/utils.py`: number the documents
from 1, render each as `"{i+1}. {basename(source)}: {page_content}"`, and
join with newlines. -/
def format_documents (documents : List Doc) : String :=
  String.intercalate "\n"
    (documents.enum.map (fun p =>
      toString (p.1 + 1) ++ ". " ++ basename p.2.source ++ ": " ++ p.2.page_content))

/-- The context assembler as the specification words it (§4.6): one line per
chunk, `"{1-based rank}. {basename of source path}: {chunk text}"`, in order,
newline-separated.  Stated independently of `format_documents` and compared
with it in claim C9. -/
def formatLines : Nat → List Doc → List String
  | _, [] => []
  | k, d :: ds =>
    (toString k ++ ". " ++ basename d.source ++ ": " ++ d.page_content)
      :: formatLines (k+1) ds

/-! ## Generic lemmas about the ranking pipeline -/

/-- Model of `argsort` (reversed or not) is a permutation of `0 .. n-1`. -/
theorem argsortDesc_perm (scores : List ℝ) :
    (argsortDesc scores).Perm (List.range scores.length) :=
  (List.reverse_perm _).trans (List.perm_insertionSort _ _)

/-- The central collapse: `list(set(argsort(scores)[::-1]))` is just
`0, 1, ..., n-1` in ascending order, whatever the scores are. -/
theorem pySetList_argsortDesc (scores : List ℝ) :
    pySetList (argsortDesc scores) = List.range scores.length := by
  have hperm := argsortDesc_perm scores
  have hnd : (argsortDesc scores).Nodup := hperm.nodup_iff.mpr (List.nodup_range _)
  unfold pySetList
  rw [List.dedup_eq_self.mpr hnd]
  exact List.eq_of_perm_of_sorted ((List.perm_insertionSort _ _).trans hperm)
    (List.sorted_insertionSort _ _) (List.sorted_le_range _)

/-- Selecting the documents at indices `(range n).take k` is taking the first
`k` documents. -/
theorem map_getD_take_range (docs : List Doc) (k : Nat) :
    (((List.range docs.length).take k).map (fun i => docs.getD i default))
      = docs.take k := by
  induction docs generalizing k with
  | nil => simp
  | cons d ds ih =>
    cases k with
    | zero => simp
    | succ k =>
      rw [List.length_cons, List.range_succ_eq_map]
      simp only [List.take_succ_cons, List.map_cons, List.getD_cons_zero]
      rw [← List.map_take, List.map_map]
      have : ((List.range ds.length).take k).map
          ((fun i => (d :: ds).getD i default) ∘ (· + 1))
          = ((List.range ds.length).take k).map (fun i => ds.getD i default) := by
        apply List.map_congr_left
        intro i _
        simp [List.getD_cons_succ]
      rw [this, ih]

/-- What a successful `search_documents` call returns: the first
`min n_results n` documents, in corpus order. -/
theorem search_documents_ok (q : String) (st : BM25State) (docs : List Doc)
    (nR : Nat) (hlen : st.corpus.length = docs.length)
    (hv : tfidfVocab docs ≠ []) :
    search_documents q (some st) docs nR = .ok (docs.take nR) := by
  have hbm : (get_scores st (clean_and_tokenize q)).length = docs.length := by
    simp [get_scores, hlen]
  have hcos : (cosineSimScores q docs).length = docs.length := by
    simp [cosineSimScores]
  have hcomb : (combinedScores (get_scores st (clean_and_tokenize q))
      (cosineSimScores q docs)).length = docs.length := by
    simp [combinedScores, hbm, hcos]
  simp only [search_documents]
  rw [if_neg hv, if_neg (by rw [hbm, hcos]; exact fun h => h rfl)]
  rw [uniqueTopDocumentIndices, pySetList_argsortDesc, hcomb, map_getD_take_range]

/-! ## Shared concrete examples -/

/-- A one-document corpus used by several witnesses. -/
def exDoc1 : Doc := ⟨"hello world", "a.py", "id1"⟩

/-- The BM25 index over `[exDoc1]`'s chunk, as built by `BM25Okapi`. -/
def exSt1 : BM25State := ⟨[["hello", "world"]]⟩

/-! ## C9: the context assembler -/

/-- The enumerate-and-render map of `format_documents` coincides with the
specification's recursive 1-based numbering. -/
theorem formatLines_enumFrom (docs : List Doc) : ∀ (k : Nat),
    (docs.enumFrom k).map (fun p =>
      toString (p.1 + 1) ++ ". " ++ basename p.2.source ++ ": " ++ p.2.page_content)
      = formatLines (k+1) docs := by
  induction docs with
  | nil => intro k; rfl
  | cons d ds ih => intro k; simp only [List.enumFrom_cons, List.map_cons, formatLines, ih]

/-- C9: for every ranked chunk sequence, `format_documents` returns the
newline-separated concatenation, in order, of one line per chunk of the form
`"{1-based rank}. {basename of source path}: {chunk text}"` (and, being a
pure function of its input, performs no scoring or mutation). -/
theorem c9_format_documents_spec (docs : List Doc) :
    format_documents docs = String.intercalate "\n" (formatLines 1 docs) := by
  unfold format_documents
  rw [show docs.enum = docs.enumFrom 0 from rfl, formatLines_enumFrom docs 0]

/-! ## C10: the filenames component of `load_and_index_files` -/

/-- C10: the filenames list returned by `load_and_index_files` has exactly one
entry per chunk — its length is the length of the split-documents list — and
entry `i` is the source path recorded in chunk `i`'s metadata (so a file split
into `k` chunks contributes its path `k` times). -/
theorem c10_filenames_align (ftc : FileTypeCounts) (docs : List Doc)
    (idx : Option BM25State) (splits : List Doc) (ftc' : FileTypeCounts)
    (names : List String)
    (h : load_and_index_files ftc docs = .ok (idx, splits, ftc', names)) :
    names = splits.map (fun d => d.source) ∧
    names.length = splits.length ∧
    ∀ i, i < splits.length →
      names.getD i "" = (splits.getD i default).source := by
  have hnames : names = splits.map (fun d => d.source) := by
    unfold load_and_index_files at h
    by_cases hs : splitDocuments docs = []
    · rw [if_pos hs] at h
      rw [Except.ok.injEq, Prod.mk.injEq, Prod.mk.injEq, Prod.mk.injEq] at h
      obtain ⟨-, h2, -, h4⟩ := h
      rw [← h4, ← h2]
    · rw [if_neg hs] at h
      cases hb : BM25Okapi ((splitDocuments docs).map (fun d => clean_and_tokenize d.page_content)) with
      | error e => rw [hb] at h; exact absurd h (by simp)
      | ok st =>
        rw [hb] at h
        rw [Except.ok.injEq, Prod.mk.injEq, Prod.mk.injEq, Prod.mk.injEq] at h
        obtain ⟨-, h2, -, h4⟩ := h
        rw [← h4, ← h2]
  refine ⟨hnames, ?_, ?_⟩
  · rw [hnames, List.length_map]
  · intro i hi
    rw [hnames]
    rw [List.getD_eq_getElem _ _ (by simpa using hi), List.getElem_map,
      List.getD_eq_getElem _ _ hi]

/-- Witness for C10 on a concrete two-document corpus (each document short
enough to become exactly one chunk). -/
theorem c10_filenames_align_witness :
    load_and_index_files [("py", 2)] [exDoc1, ⟨"foo bar", "b.py", "id2"⟩]
      = .ok (some ⟨[["hello", "world"], ["foo", "bar"]]⟩,
          [exDoc1, ⟨"foo bar", "b.py", "id2"⟩], [("py", 2)], ["a.py", "b.py"]) ∧
    (["a.py", "b.py"] : List String)
      = [exDoc1, (⟨"foo bar", "b.py", "id2"⟩ : Doc)].map (fun d => d.source) := by
  constructor
  · rfl
  · exact (c10_filenames_align [("py", 2)] [exDoc1, ⟨"foo bar", "b.py", "id2"⟩]
      (some ⟨[["hello", "world"], ["foo", "bar"]]⟩)
      [exDoc1, ⟨"foo bar", "b.py", "id2"⟩] [("py", 2)] ["a.py", "b.py"] rfl).1

/-! ## C4: the empty corpus -/

/-- C4, counterexample to the claim as stated: after indexing an empty corpus
(`index = None`), a search does not return an empty ranked sequence — it
fails, with Python raising `AttributeError` on `None.get_scores`. -/
theorem c4_counterexample :
    search_documents "any query" none [] 5
      = .error "AttributeError: NoneType object has no attribute get_scores" := rfl

/-- C4, amended: indexing an empty corpus yields a `None` index together with
empty chunk and filename lists (the explicit nothing-to-index signal of §7,
on which the application exits before ever searching), and a subsequent
search with that `None` index — or over an empty document list — fails
rather than returning an empty ranked sequence. -/
theorem c4_empty_corpus (ftc : FileTypeCounts) :
    load_and_index_files ftc [] = .ok (none, [], ftc, []) ∧
    (∀ (q : String) (docs : List Doc) (n : Nat),
      search_documents q none docs n
        = .error "AttributeError: NoneType object has no attribute get_scores") ∧
    (∀ (q : String) (st : BM25State) (n : Nat),
      search_documents q (some st) [] n
        = .error "ValueError: empty vocabulary; perhaps the documents only contain stop words") := by
  refine ⟨rfl, fun q docs n => rfl, fun q st n => rfl⟩

/-! ## C7: determinism of search and formatting -/

/-- C7: search is deterministic — for a fixed index, corpus and result count,
two runs on equal query strings return equal ranked output, and formatting
that output yields equal context strings.  (The embedding is a pure function
of its inputs, mirroring the source: CPython's iteration order over a set of
small ints and numpy's argsort are deterministic, and no randomness enters
`search_documents` or `format_documents`.) -/
theorem c7_determinism (q1 q2 : String) (idx : Option BM25State)
    (docs : List Doc) (nR : Nat) (h : q1 = q2) :
    search_documents q1 idx docs nR = search_documents q2 idx docs nR ∧
    (search_documents q1 idx docs nR).map format_documents
      = (search_documents q2 idx docs nR).map format_documents := by
  subst h
  exact ⟨rfl, rfl⟩

/-- Witness for C7 at a concrete repeated query. -/
theorem c7_determinism_witness :
    ("quick fox" : String) = "quick fox" ∧
    (search_documents "quick fox" (some exSt1) [exDoc1] 5
        = search_documents "quick fox" (some exSt1) [exDoc1] 5 ∧
      (search_documents "quick fox" (some exSt1) [exDoc1] 5).map format_documents
        = (search_documents "quick fox" (some exSt1) [exDoc1] 5).map format_documents) :=
  ⟨rfl, c7_determinism "quick fox" "quick fox" (some exSt1) [exDoc1] 5 rfl⟩

/-! ## C2: deduplication and truncation -/

/-- C2: for every non-empty corpus, query and `n_results`, a successful
search selects by a duplicate-free index list of length at most `n_results`
(so the returned list is that short too), and when the corpus has fewer than
`n_results` chunks every chunk index appears in it exactly once. -/
theorem c2_no_duplicates (q : String) (st : BM25State) (docs : List Doc)
    (nR : Nat) (res : List Doc) (hne : docs ≠ [])
    (h : search_documents q (some st) docs nR = .ok res) :
    ∃ idxs : List Nat,
      res = idxs.map (fun i => docs.getD i default) ∧
      idxs.Nodup ∧
      idxs.length ≤ nR ∧
      res.length ≤ nR ∧
      (docs.length < nR → ∀ i, i < docs.length → idxs.count i = 1) := by
  simp only [search_documents] at h
  by_cases hv : tfidfVocab docs = []
  · rw [if_pos hv] at h
    exact absurd h (by simp)
  · rw [if_neg hv] at h
    by_cases hl : (get_scores st (clean_and_tokenize q)).length
        = (cosineSimScores q docs).length
    · rw [if_neg (fun hc => hc hl)] at h
      have hcos : (cosineSimScores q docs).length = docs.length := by
        simp [cosineSimScores]
      have hcomb : (combinedScores (get_scores st (clean_and_tokenize q))
          (cosineSimScores q docs)).length = docs.length := by
        simp [combinedScores, hl.symm ▸ hcos, hcos]
      refine ⟨uniqueTopDocumentIndices (combinedScores
        (get_scores st (clean_and_tokenize q)) (cosineSimScores q docs)) nR,
        ?_, ?_, ?_, ?_, ?_⟩
      · exact (Except.ok.injEq _ _ ▸ h).symm
      · unfold uniqueTopDocumentIndices
        rw [pySetList_argsortDesc, hcomb]
        exact (List.nodup_range _).sublist (List.take_sublist _ _)
      · unfold uniqueTopDocumentIndices
        rw [pySetList_argsortDesc, hcomb]
        simpa using Nat.min_le_left nR docs.length
      · have hres : res = (uniqueTopDocumentIndices (combinedScores
            (get_scores st (clean_and_tokenize q)) (cosineSimScores q docs)) nR).map
            (fun i => docs.getD i default) := (Except.ok.injEq _ _ ▸ h).symm
        rw [hres, List.length_map]
        unfold uniqueTopDocumentIndices
        rw [pySetList_argsortDesc, hcomb]
        simpa using Nat.min_le_left nR docs.length
      · intro hlt i hi
        unfold uniqueTopDocumentIndices
        rw [pySetList_argsortDesc, hcomb,
          List.take_of_length_le (by simpa using Nat.le_of_lt hlt)]
        exact List.count_eq_one_of_mem (List.nodup_range _) (List.mem_range.mpr hi)
    · rw [if_pos hl] at h
      exact absurd h (by simp)

/-- Witness for C2: a one-chunk corpus searched with `n_results = 5`. -/
theorem c2_no_duplicates_witness :
    ([exDoc1] : List Doc) ≠ [] ∧
    search_documents "hello" (some exSt1) [exDoc1] 5 = .ok [exDoc1] ∧
    (∃ idxs : List Nat,
      [exDoc1] = idxs.map (fun i => [exDoc1].getD i default) ∧
      idxs.Nodup ∧ idxs.length ≤ 5 ∧ ([exDoc1] : List Doc).length ≤ 5 ∧
      (([exDoc1] : List Doc).length < 5 → ∀ i, i < ([exDoc1] : List Doc).length →
        idxs.count i = 1)) := by
  have hok : search_documents "hello" (some exSt1) [exDoc1] 5 = .ok [exDoc1] :=
    search_documents_ok "hello" exSt1 [exDoc1] 5 rfl (by decide)
  exact ⟨by decide, hok, c2_no_duplicates "hello" exSt1 [exDoc1] 5 [exDoc1] (by decide) hok⟩

/-! ## C5: alignment of the two score arrays -/

/-- C5: against the index built over the same chunk list, the BM25 score
array and the cosine score array computed inside `search_documents` both have
length equal to the number of chunks, and entry `i` of each is the score of
chunk `i`. -/
theorem c5_alignment (q : String) (docs : List Doc) (st : BM25State)
    (hne : docs ≠ [])
    (hb : BM25Okapi (docs.map (fun d => clean_and_tokenize d.page_content)) = .ok st) :
    (get_scores st (clean_and_tokenize q)).length = docs.length ∧
    (cosineSimScores q docs).length = docs.length ∧
    ∀ i, i < docs.length →
      (get_scores st (clean_and_tokenize q)).getD i 0
          = bm25DocScore st.corpus (clean_and_tokenize q)
              (clean_and_tokenize ((docs.getD i default).page_content)) ∧
      (cosineSimScores q docs).getD i 0 = cosineScoreDoc q docs (docs.getD i default) := by
  have hst : st = ⟨docs.map (fun d => clean_and_tokenize d.page_content)⟩ := by
    unfold BM25Okapi at hb
    by_cases h1 : docs.map (fun d => clean_and_tokenize d.page_content) = []
    · rw [if_pos h1] at hb; exact absurd hb (by simp)
    · rw [if_neg h1] at hb
      by_cases h2 : vocabList (docs.map (fun d => clean_and_tokenize d.page_content)) = []
      · rw [if_pos h2] at hb; exact absurd hb (by simp)
      · rw [if_neg h2] at hb; exact (Except.ok.inj hb).symm
  subst hst
  have hbmlen : (get_scores ⟨docs.map (fun d => clean_and_tokenize d.page_content)⟩
      (clean_and_tokenize q)).length = docs.length := by
    simp [get_scores]
  have hcoslen : (cosineSimScores q docs).length = docs.length := by
    simp [cosineSimScores]
  refine ⟨hbmlen, hcoslen, fun i hi => ⟨?_, ?_⟩⟩
  · rw [List.getD_eq_getElem _ _ (by rw [hbmlen]; exact hi)]
    simp only [get_scores, List.getElem_map]
    rw [List.getD_eq_getElem _ _ hi]
  · rw [List.getD_eq_getElem _ _ (by rw [hcoslen]; exact hi)]
    simp only [cosineSimScores, List.getElem_map]
    rw [List.getD_eq_getElem _ _ hi]

/-- Witness for C5 on the one-chunk corpus. -/
theorem c5_alignment_witness :
    ([exDoc1] : List Doc) ≠ [] ∧
    BM25Okapi ([exDoc1].map (fun d => clean_and_tokenize d.page_content)) = .ok exSt1 ∧
    ((get_scores exSt1 (clean_and_tokenize "hello")).length = ([exDoc1] : List Doc).length ∧
      (cosineSimScores "hello" [exDoc1]).length = ([exDoc1] : List Doc).length ∧
      ∀ i, i < ([exDoc1] : List Doc).length →
        (get_scores exSt1 (clean_and_tokenize "hello")).getD i 0
            = bm25DocScore exSt1.corpus (clean_and_tokenize "hello")
                (clean_and_tokenize (([exDoc1].getD i default).page_content)) ∧
        (cosineSimScores "hello" [exDoc1]).getD i 0
            = cosineScoreDoc "hello" [exDoc1] ([exDoc1].getD i default)) :=
  ⟨by decide, rfl, c5_alignment "hello" [exDoc1] exSt1 (by decide) rfl⟩

/-! ## C6: the 0.5/0.5 combination -/

/-- C6: each chunk's combined score is the equally weighted (0.5/0.5) sum of
its BM25 score and its cosine-similarity score. -/
theorem c6_equal_weights (q : String) (docs : List Doc) (st : BM25State)
    (hb : BM25Okapi (docs.map (fun d => clean_and_tokenize d.page_content)) = .ok st) :
    ∀ i, i < docs.length →
      (combinedScores (get_scores st (clean_and_tokenize q))
          (cosineSimScores q docs)).getD i 0
        = 0.5 * bm25DocScore st.corpus (clean_and_tokenize q)
              (clean_and_tokenize ((docs.getD i default).page_content))
          + 0.5 * cosineScoreDoc q docs (docs.getD i default) := by
  have hst : st = ⟨docs.map (fun d => clean_and_tokenize d.page_content)⟩ := by
    unfold BM25Okapi at hb
    by_cases h1 : docs.map (fun d => clean_and_tokenize d.page_content) = []
    · rw [if_pos h1] at hb; exact absurd hb (by simp)
    · rw [if_neg h1] at hb
      by_cases h2 : vocabList (docs.map (fun d => clean_and_tokenize d.page_content)) = []
      · rw [if_pos h2] at hb; exact absurd hb (by simp)
      · rw [if_neg h2] at hb; exact (Except.ok.inj hb).symm
  subst hst
  intro i hi
  have hbmlen : (get_scores ⟨docs.map (fun d => clean_and_tokenize d.page_content)⟩
      (clean_and_tokenize q)).length = docs.length := by
    simp [get_scores]
  have hcomblen : (combinedScores (get_scores ⟨docs.map (fun d => clean_and_tokenize d.page_content)⟩
      (clean_and_tokenize q)) (cosineSimScores q docs)).length = docs.length := by
    simp [combinedScores, cosineSimScores, hbmlen]
  rw [List.getD_eq_getElem _ _ (by rw [hcomblen]; exact hi)]
  simp only [combinedScores, List.getElem_zipWith, get_scores, cosineSimScores,
    List.getElem_map]
  rw [List.getD_eq_getElem _ _ hi]
  ring

/-- Witness for C6 on the one-chunk corpus. -/
theorem c6_equal_weights_witness :
    BM25Okapi ([exDoc1].map (fun d => clean_and_tokenize d.page_content)) = .ok exSt1 ∧
    (∀ i, i < ([exDoc1] : List Doc).length →
      (combinedScores (get_scores exSt1 (clean_and_tokenize "hello"))
          (cosineSimScores "hello" [exDoc1])).getD i 0
        = 0.5 * bm25DocScore exSt1.corpus (clean_and_tokenize "hello")
              (clean_and_tokenize (([exDoc1].getD i default).page_content))
          + 0.5 * cosineScoreDoc "hello" [exDoc1] ([exDoc1].getD i default)) :=
  ⟨rfl, c6_equal_weights "hello" [exDoc1] exSt1 rfl⟩

/-! ## C3: the token normalizer -/

/-- A successful `dropSeq` decomposes its input. -/
theorem dropSeq_eq {p : List Char} : ∀ {l r : List Char},
    dropSeq p l = some r → l = p ++ r := by
  induction p with
  | nil =>
    intro l r h
    rw [dropSeq] at h
    cases h
    rfl
  | cons p ps ih =>
    intro l r h
    cases l with
    | nil => cases h
    | cons c cs =>
      rw [dropSeq] at h
      by_cases hc : c = p
      · rw [if_pos hc] at h
        rw [hc, List.cons_append, ← ih h]
      · rw [if_neg hc] at h
        cases h

/-- Every matched URL scheme contains a colon. -/
theorem schemeDrop_mem_colon {l : List Char} {x : Nat × List Char}
    (h : schemeDrop l = some x) : ':' ∈ l := by
  unfold schemeDrop at h
  split at h
  next heq => rw [dropSeq_eq heq]; simp
  next =>
    split at h
    next heq => rw [dropSeq_eq heq]; simp
    next =>
      split at h
      next heq => rw [dropSeq_eq heq]; simp
      next =>
        split at h
        next heq => rw [dropSeq_eq heq]; simp
        next => cases h

/-- A URL match starting anywhere inside `l` forces a colon in `l`. -/
theorem hasUrlMatchGo_mem_colon : ∀ (l : List Char) (b : Bool),
    hasUrlMatchGo b l = true → ':' ∈ l := by
  intro l
  induction l with
  | nil => intro b h; cases h
  | cons c rest ih =>
    intro b h
    rw [hasUrlMatchGo] at h
    cases (Bool.or_eq_true _ _).mp h with
    | inl h1 =>
      have h1' : (¬ b) = true ∧ urlHeadMatch (c :: rest) = true := by simpa using h1
      have hm : urlHeadMatch (c :: rest) = true := h1'.2
      rw [urlHeadMatch] at hm
      split at hm
      next heq => exact schemeDrop_mem_colon heq
      next heq => cases hm
      next => cases hm
    | inr h2 => exact List.mem_cons_of_mem _ (ih _ h2)

/-- An HTML-tag match forces a `<` in `l`. -/
theorem hasTagMatch_mem : ∀ {l : List Char}, hasTagMatch l = true → '<' ∈ l := by
  intro l
  induction l with
  | nil => intro h; cases h
  | cons c rest ih =>
    intro h
    rw [hasTagMatch] at h
    cases (Bool.or_eq_true _ _).mp h with
    | inl h1 =>
      have : c = '<' := by
        have h1' := by simpa using h1
        exact h1'.1
      rw [this]
      exact List.mem_cons_self _ _
    | inr h2 => exact List.mem_cons_of_mem _ (ih h2)

/-- A bracketed-aside match forces a `[` in `l`. -/
theorem hasBracketMatch_mem : ∀ {l : List Char}, hasBracketMatch l = true → '[' ∈ l := by
  intro l
  induction l with
  | nil => intro h; cases h
  | cons c rest ih =>
    intro h
    rw [hasBracketMatch] at h
    cases (Bool.or_eq_true _ _).mp h with
    | inl h1 =>
      have : c = '[' := by
        have h1' := by simpa using h1
        exact h1'.1
      rw [this]
      exact List.mem_cons_self _ _
    | inr h2 => exact List.mem_cons_of_mem _ (ih h2)

/-- A parenthetical match forces a `(` in `l`. -/
theorem hasParenMatch_mem : ∀ {l : List Char}, hasParenMatch l = true → '(' ∈ l := by
  intro l
  induction l with
  | nil => intro h; cases h
  | cons c rest ih =>
    intro h
    rw [hasParenMatch] at h
    cases (Bool.or_eq_true _ _).mp h with
    | inl h1 =>
      have : c = '(' := by
        have h1' := by simpa using h1
        exact h1'.1
      rw [this]
      exact List.mem_cons_self _ _
    | inr h2 => exact List.mem_cons_of_mem _ (ih h2)

/-- After `re.sub(r"\W", " ", ·)`, every character is a word character or a
space. -/
theorem subNonWord_chars {l : List Char} {c : Char} (h : c ∈ subNonWord l) :
    isWordChar c = true ∨ c = ' ' := by
  unfold subNonWord at h
  obtain ⟨d, -, hc⟩ := List.mem_map.mp h
  by_cases hw : isWordChar d = true
  · rw [if_pos hw] at hc
    exact hc ▸ .inl hw
  · rw [if_neg hw] at hc
    exact .inr hc.symm

/-- After `re.sub(r"\d+", "", ·)`, no character is a digit. -/
theorem removeDigits_chars {l : List Char} {c : Char} (h : c ∈ removeDigits l) :
    c ∈ l ∧ c.isDigit = false := by
  unfold removeDigits at h
  have hm := List.mem_filter.mp h
  refine ⟨hm.1, ?_⟩
  have := of_decide_eq_true hm.2
  simpa using this

/-- Lowercasing a non-digit word character yields a lowercase letter or the
underscore, never a digit. -/
theorem toLower_word_nondigit {d : Char} (hw : isWordChar d = true)
    (hd : d.isDigit = false) :
    ((Char.toLower d).isLower = true ∨ Char.toLower d = '_') ∧
      (Char.toLower d).isDigit = false := by
  unfold isWordChar at hw
  cases (Bool.or_eq_true _ _).mp hw with
  | inr hu =>
    have : d = '_' := of_decide_eq_true hu
    subst this
    exact ⟨.inr (by decide), by decide⟩
  | inl halnum =>
    unfold Char.isAlphanum at halnum
    cases (Bool.or_eq_true _ _).mp halnum with
    | inr hdig => rw [hdig] at hd; cases hd
    | inl halpha =>
      unfold Char.isAlpha at halpha
      cases (Bool.or_eq_true _ _).mp halpha with
      | inl hup =>
        have hb : 65 ≤ d.toNat ∧ d.toNat ≤ 90 := by
          simp [Char.isUpper, UInt32.le_def, BitVec.le_def] at hup
          exact hup
        obtain ⟨h1, h2⟩ := hb
        rw [Char.toLower]
        simp only [if_pos (And.intro h1 h2)]
        constructor
        · left
          set n := d.toNat with hn
          interval_cases n <;> decide
        · set n := d.toNat with hn
          interval_cases n <;> decide
      | inr hlow =>
        have hb : 97 ≤ d.toNat ∧ d.toNat ≤ 122 := by
          simp [Char.isLower, UInt32.le_def, BitVec.le_def] at hlow
          exact hlow
        have heq : Char.toLower d = d := by
          rw [Char.toLower]
          simp only [if_neg (by omega : ¬ (65 ≤ d.toNat ∧ d.toNat ≤ 90))]
        rw [heq]
        exact ⟨.inl hlow, hd⟩

/-- The word splitter only produces non-empty words of non-space characters
satisfying any property the non-space input characters satisfy. -/
theorem splitWordsAux_prop (P : Char → Prop) : ∀ (l acc : List Char),
    (∀ c ∈ l, isSpaceChar c = false → P c) →
    (∀ c ∈ acc, P c ∧ isSpaceChar c = false) →
    ∀ w ∈ splitWordsAux acc l, w ≠ [] ∧ ∀ c ∈ w, P c ∧ isSpaceChar c = false := by
  intro l
  induction l with
  | nil =>
    intro acc _ hacc w hw
    rw [splitWordsAux] at hw
    by_cases ha : acc = []
    · rw [if_pos ha] at hw
      cases hw
    · rw [if_neg ha] at hw
      rcases List.mem_singleton.mp hw with rfl
      refine ⟨by simpa using ha, fun c hc => hacc c (List.mem_reverse.mp hc)⟩
  | cons d rest ih =>
    intro acc hl hacc w hw
    rw [splitWordsAux] at hw
    by_cases hs : isSpaceChar d = true
    · rw [if_pos hs] at hw
      by_cases ha : acc = []
      · rw [if_pos ha] at hw
        exact ih [] (fun c hc h => hl c (List.mem_cons_of_mem _ hc) h) (by simp) w hw
      · rw [if_neg ha] at hw
        cases hw with
        | head =>
          refine ⟨by simpa using ha, fun c hc => hacc c (List.mem_reverse.mp hc)⟩
        | tail _ hw' =>
          exact ih [] (fun c hc h => hl c (List.mem_cons_of_mem _ hc) h) (by simp) w hw'
    · rw [if_neg hs] at hw
      refine ih (d :: acc) (fun c hc h => hl c (List.mem_cons_of_mem _ hc) h) ?_ w hw
      intro c hc
      cases hc with
      | head =>
        exact ⟨hl d (List.mem_cons_self _ _) (Bool.not_eq_true _ ▸ hs ∘ Eq.symm ∘ Eq.symm), by
          exact Bool.eq_false_iff.mpr hs⟩
      | tail _ hc' => exact hacc c hc'

/-- The characters entering the word splitter (after `\W`-substitution,
digit removal and lowercasing): any non-space one is a lowercase letter or an
underscore, and is not a digit. -/
theorem cleanedChars_prop (t : List Char) :
    ∀ c ∈ (removeDigits (subNonWord t)).map Char.toLower,
      isSpaceChar c = false → (c.isLower = true ∨ c = '_') ∧ c.isDigit = false := by
  intro c hc hns
  obtain ⟨d, hd, hcd⟩ := List.mem_map.mp hc
  obtain ⟨hd1, hd2⟩ := removeDigits_chars hd
  cases subNonWord_chars hd1 with
  | inl hw => exact hcd ▸ toLower_word_nondigit hw hd2
  | inr hsp =>
    subst hsp
    rw [show Char.toLower ' ' = ' ' from rfl] at hcd
    rw [← hcd] at hns
    cases hns

/-- C3, amended: every token produced by `clean_and_tokenize` is a non-empty
lowercase word over letters and the underscore (Python's `\W` keeps `_`),
contains no digit, and contains no substring matching the HTML-tag,
bracketed-aside, parenthetical or `http/https/ftp` URL pattern. -/
theorem c3_lowercase_tokens (text : String) (tok : String)
    (htok : tok ∈ clean_and_tokenize text) :
    tok ≠ "" ∧
    (∀ c ∈ tok.data, (c.isLower = true ∨ c = '_') ∧ c.isDigit = false) ∧
    hasTagMatch tok.data = false ∧
    hasBracketMatch tok.data = false ∧
    hasParenMatch tok.data = false ∧
    hasUrlMatch tok.data = false := by
  unfold clean_and_tokenize at htok
  obtain ⟨w, hw, hkw⟩ := List.mem_map.mp htok
  have hprop := splitWordsAux_prop
    (fun c => (c.isLower = true ∨ c = '_') ∧ c.isDigit = false) _ []
    (cleanedChars_prop _) (by simp) w hw
  obtain ⟨hne, hchars⟩ := hprop
  have hdata : tok.data = w := by rw [← hkw]
  have hcc : ∀ c ∈ tok.data, (c.isLower = true ∨ c = '_') ∧ c.isDigit = false :=
    fun c hc => (hchars c (hdata ▸ hc)).1
  have hnotc : ∀ (a : Char), (a.isLower = true ∨ a = '_') → False →  a ∈ tok.data → False :=
    fun a _ h _ => h
  have hchar_ne : ∀ (a : Char), a.isLower = false → a ≠ '_' → a ∉ tok.data := by
    intro a ha hu hmem
    cases (hcc a hmem).1 with
    | inl h => rw [h] at ha; cases ha
    | inr h => exact hu h
  refine ⟨?_, hcc, ?_, ?_, ?_, ?_⟩
  · intro hempty
    apply hne
    rw [← hdata, hempty]
  · cases htag : hasTagMatch tok.data with
    | false => rfl
    | true => exact absurd (hasTagMatch_mem htag) (hchar_ne '<' (by decide) (by decide))
  · cases hbr : hasBracketMatch tok.data with
    | false => rfl
    | true => exact absurd (hasBracketMatch_mem hbr) (hchar_ne '[' (by decide) (by decide))
  · cases hpa : hasParenMatch tok.data with
    | false => rfl
    | true => exact absurd (hasParenMatch_mem hpa) (hchar_ne '(' (by decide) (by decide))
  · cases hurl : hasUrlMatch tok.data with
    | false => rfl
    | true =>
      exact absurd (hasUrlMatchGo_mem_colon _ _ hurl) (hchar_ne ':' (by decide) (by decide))

/-- Witness for C3 (amended) on a concrete messy input. -/
theorem c3_lowercase_tokens_witness :
    ("hello" : String) ∈ clean_and_tokenize "Hello <b>World</b> [x] (y) http://a.b 42 ok" ∧
    (("hello" : String) ≠ "" ∧
      (∀ c ∈ ("hello" : String).data, (c.isLower = true ∨ c = '_') ∧ c.isDigit = false) ∧
      hasTagMatch ("hello" : String).data = false ∧
      hasBracketMatch ("hello" : String).data = false ∧
      hasParenMatch ("hello" : String).data = false ∧
      hasUrlMatch ("hello" : String).data = false) :=
  ⟨by decide, c3_lowercase_tokens "Hello <b>World</b> [x] (y) http://a.b 42 ok" "hello"
    (by decide)⟩

/-- C3, counterexample to the claim as stated: the normalizer keeps
underscores (`\W` does not match `_`), so a token need not be purely
alphabetic: `clean_and_tokenize "see a_b"` produces the token `"a_b"`,
which contains the non-alphabetic character `_`. -/
theorem c3_counterexample :
    clean_and_tokenize "see a_b" = ["see", "a_b"] ∧
    ("a_b" : String) ∈ clean_and_tokenize "see a_b" ∧
    ¬ (∀ c ∈ ("a_b" : String).data, c.isAlpha = true) :=
  ⟨by decide, by decide, fun h => absurd (h '_' (by decide)) (by decide)⟩

/-! ## C8: the chunker on short documents

Proof infrastructure: `interleave` reassembles split fragments around a
separator, `concatL`-based length bookkeeping drives the merge lemmas. -/

/-- Fragments interleaved with their separator (proof helper). -/
def interleave (sep : List Char) : List (List Char) → List Char
  | [] => []
  | [p] => p
  | p :: q :: ps => p ++ sep ++ interleave sep (q :: ps)

/-- A positive skip counter just drops characters. -/
theorem splitGo_skip (sep : List Char) : ∀ (m : Nat) (acc l : List Char),
    splitGo sep m acc l = splitGo sep 0 acc (l.drop m) := by
  intro m
  induction m with
  | zero => intro acc l; rw [List.drop_zero]
  | succ n ih =>
    intro acc l
    cases l with
    | nil => simp [splitGo]
    | cons c rest =>
      rw [splitGo, List.drop_succ_cons]
      exact ih acc rest

/-- The splitter always returns at least one fragment. -/
theorem splitGo_ne_nil (sep : List Char) : ∀ (l : List Char) (m : Nat) (acc : List Char),
    splitGo sep m acc l ≠ [] := by
  intro l
  induction l with
  | nil => intro m acc; cases m <;> simp [splitGo]
  | cons c rest ih =>
    intro m acc
    cases m with
    | zero =>
      rw [splitGo]
      cases hds : dropSeq sep (c :: rest) with
      | some after => simp
      | none => exact ih 0 (c :: acc)
    | succ n =>
      rw [splitGo]
      exact ih n acc

/-- Reassembling the fragments with the separator restores the input. -/
theorem splitGo_interleave (sep : List Char) (hsep : sep ≠ []) :
    ∀ (n : Nat) (l acc : List Char), l.length ≤ n →
      interleave sep (splitGo sep 0 acc l) = acc.reverse ++ l := by
  intro n
  induction n with
  | zero =>
    intro l acc hl
    have : l = [] := List.length_eq_zero.mp (Nat.le_zero.mp hl)
    subst this
    simp [splitGo, interleave]
  | succ n ih =>
    intro l acc hl
    cases l with
    | nil => simp [splitGo, interleave]
    | cons c rest =>
      rw [splitGo]
      cases hds : dropSeq sep (c :: rest) with
      | none =>
        rw [ih rest (c :: acc) (by simp at hl; omega)]
        simp
      | some after =>
        have hdec := dropSeq_eq hds
        obtain ⟨s0, stail, rfl⟩ : ∃ s0 stail, sep = s0 :: stail := by
          cases sep with
          | nil => exact absurd rfl hsep
          | cons a b => exact ⟨a, b, rfl⟩
        rw [List.cons_append, List.cons.injEq] at hdec
        obtain ⟨rfl, hrest⟩ := hdec
        rw [splitGo_skip]
        rw [hrest, show (c :: stail).length - 1 = stail.length by simp,
          List.drop_left]
        have hne := splitGo_ne_nil (c :: stail) after 0 []
        obtain ⟨p, ps, hps⟩ : ∃ p ps, splitGo (c :: stail) 0 [] after = p :: ps := by
          cases hsg : splitGo (c :: stail) 0 [] after with
          | nil => exact absurd hsg hne
          | cons p ps => exact ⟨p, ps, rfl⟩
        rw [hps, interleave, ← hps]
        have hlen2 : after.length ≤ n := by
          have h1 : rest.length ≤ n := by simp at hl; omega
          rw [hrest, List.length_append] at h1
          omega
        rw [ih after [] hlen2]
        simp [hrest]

/-- Model of `concatL` distributes over cons (definitional). -/
theorem concatL_cons (x : List Char) (L : List (List Char)) :
    concatL (x :: L) = x ++ concatL L := rfl

/-- Model of `concatL` distributes over append. -/
theorem concatL_append : ∀ (A B : List (List Char)),
    concatL (A ++ B) = concatL A ++ concatL B := by
  intro A B
  induction A with
  | nil => rfl
  | cons x A ih => rw [List.cons_append, concatL_cons, concatL_cons, ih, List.append_assoc]

/-- Dropping empty fragments does not change the concatenation. -/
theorem concatL_filter_ne_nil : ∀ (L : List (List Char)),
    concatL (L.filter (fun q => q ≠ [])) = concatL L := by
  intro L
  induction L with
  | nil => rfl
  | cons x L ih =>
    by_cases hx : x = []
    · subst hx
      rw [List.filter_cons, if_neg (by simp), concatL_cons, ih, List.nil_append]
    · rw [List.filter_cons, if_pos (by simpa using hx), concatL_cons, concatL_cons, ih]

/-- Attaching the separators to the following fragments concatenates to the
interleaving. -/
theorem concatL_map_interleave (sep : List Char) : ∀ (ps : List (List Char)) (p : List Char),
    concatL (p :: ps.map (fun q => sep ++ q)) = interleave sep (p :: ps) := by
  intro ps
  induction ps with
  | nil => intro p; simp [concatL, interleave]
  | cons q ps ih =>
    intro p
    rw [interleave, ← ih q, List.map_cons, concatL_cons, concatL_cons, concatL_cons]
    simp [List.append_assoc]

/-- Singleton fragments concatenate to the original list. -/
theorem concatL_singletons : ∀ (l : List Char), concatL (l.map (fun c => [c])) = l := by
  intro l
  induction l with
  | nil => rfl
  | cons c l ih => rw [List.map_cons, concatL_cons, ih]; rfl

/-- Model of `_split_text_with_regex` reconstructs its input. -/
theorem splitKeepSep_concat (sep text : List Char) :
    concatL (splitKeepSep sep text) = text := by
  unfold splitKeepSep
  by_cases hsep : sep = []
  · rw [if_pos hsep]
    exact concatL_singletons text
  · rw [if_neg hsep]
    have hne := splitGo_ne_nil sep text 0 []
    cases hps : splitGo sep 0 [] text with
    | nil => exact absurd hps hne
    | cons p ps =>
      rw [concatL_filter_ne_nil, concatL_map_interleave, ← hps]
      have := splitGo_interleave sep hsep text.length text [] (Nat.le_refl _)
      simpa using this

/-- Fragments of the splitter are never empty. -/
theorem splitKeepSep_ne_nil {sep text : List Char} {q : List Char}
    (hsep : sep ≠ []) (hq : q ∈ splitKeepSep sep text) : q ≠ [] := by
  unfold splitKeepSep at hq
  rw [if_neg hsep] at hq
  cases hps : splitGo sep 0 [] text with
  | nil => rw [hps] at hq; cases hq
  | cons p ps =>
    rw [hps] at hq
    have := List.mem_filter.mp hq
    simpa using this.2

/-- A fragment is at most as long as the concatenation it sits in. -/
theorem length_le_concatL : ∀ {L : List (List Char)} {q : List Char},
    q ∈ L → q.length ≤ (concatL L).length := by
  intro L
  induction L with
  | nil => intro q hq; cases hq
  | cons x L ih =>
    intro q hq
    rw [concatL_cons, List.length_append]
    cases hq with
    | head => omega
    | tail _ hq' =>
      have := ih hq'
      omega

/-- A fragment as long as the whole concatenation is the only fragment. -/
theorem eq_single_of_long : ∀ {L : List (List Char)} {p : List Char},
    (∀ q ∈ L, q ≠ []) → p ∈ L → (concatL L).length ≤ p.length → L = [p] := by
  intro L
  induction L with
  | nil => intro p _ hp; cases hp
  | cons x L ih =>
    intro p hne hp hlen
    rw [concatL_cons, List.length_append] at hlen
    cases hp with
    | head =>
      cases hL : L with
      | nil => rfl
      | cons r rs =>
        exfalso
        have hr : r ≠ [] := hne r (by rw [hL]; exact List.mem_cons_of_mem _ (List.mem_cons_self _ _))
        have h1 : 0 < r.length := List.length_pos.mpr hr
        have h2 : r.length ≤ (concatL L).length := by
          rw [hL]
          exact length_le_concatL (List.mem_cons_self _ _)
        omega
    | tail _ hp' =>
      exfalso
      have hq : x ≠ [] := hne x (List.mem_cons_self _ _)
      have h1 : 0 < x.length := List.length_pos.mpr hq
      have h2 : p.length ≤ (concatL L).length := length_le_concatL hp'
      omega

/-- When the fragments fit in one chunk, the merge loop just joins them. -/
theorem mergeSplitsGo_small : ∀ (rest cur pending : List (List Char)),
    (concatL cur).length + (concatL rest).length ≤ 3000 →
    mergeSplitsGo pending cur (concatL cur).length rest
      = pending ++ (joinDocs (cur ++ rest)).toList := by
  intro rest
  induction rest with
  | nil =>
    intro cur pending _
    rw [mergeSplitsGo, List.append_nil]
  | cons d rest ih =>
    intro cur pending h
    rw [concatL_cons, List.length_append] at h
    rw [mergeSplitsGo, if_neg (by omega)]
    have hc : (concatL cur).length + d.length = (concatL (cur ++ [d])).length := by
      rw [concatL_append, List.length_append, concatL_cons]
      simp [concatL]
    rw [hc, ih (cur ++ [d]) pending (by rw [← hc]; omega)]
    rw [List.append_assoc, List.singleton_append]

/-- When every fragment is short, the processing loop merges them all. -/
theorem processSplits_all_good (deeper : Option (List Char → List (List Char))) :
    ∀ (rest good : List (List Char)), (∀ p ∈ rest, p.length < 3000) →
    processSplits deeper good rest
      = if good ++ rest = [] then [] else mergeSplits (good ++ rest) := by
  intro rest
  induction rest with
  | nil =>
    intro good _
    rw [show processSplits deeper good []
        = if good = [] then [] else mergeSplits good from rfl, List.append_nil]
  | cons s rest ih =>
    intro good h
    rw [show processSplits deeper good (s :: rest)
        = if s.length < 3000 then processSplits deeper (good ++ [s]) rest
          else (if good = [] then [] else mergeSplits good)
            ++ deeperApply deeper s
            ++ processSplits deeper [] rest from rfl,
      if_pos (h s (List.mem_cons_self _ _)),
      ih (good ++ [s]) (fun p hp => h p (List.mem_cons_of_mem _ hp)),
      List.append_assoc, List.singleton_append]

/-- Joining one fragment strips it. -/
theorem joinDocs_single (t : List Char) :
    joinDocs [t] = if pyStrip t = [] then none else some (pyStrip t) := by
  unfold joinDocs
  rw [concatL_cons]
  simp [concatL]

/-- Short fragment lists process to the single stripped chunk. -/
theorem processSplits_merge (deeper : Option (List Char → List (List Char)))
    (pieces : List (List Char)) (text : List Char)
    (hconcat : concatL pieces = text) (hlen : text.length ≤ 3000)
    (hall : ∀ p ∈ pieces, p.length < 3000) :
    processSplits deeper [] pieces = (joinDocs [text]).toList := by
  rw [processSplits_all_good _ _ _ hall, List.nil_append]
  by_cases hemp : pieces = []
  · rw [if_pos hemp]
    have htext : text = [] := by rw [← hconcat, hemp]; rfl
    subst htext
    simp [joinDocs_single, pyStrip]
  · rw [if_neg hemp]
    unfold mergeSplits
    rw [show (0:Nat) = (concatL ([] : List (List Char))).length from rfl,
      mergeSplitsGo_small pieces [] []
        (by rw [show concatL ([] : List (List Char)) = [] from rfl, hconcat]
            simpa using hlen)]
    have h1 : concatL [text] = text := by
      rw [concatL_cons]
      simp [concatL]
    have h2 : joinDocs pieces = joinDocs [text] := by
      unfold joinDocs
      rw [hconcat, h1]
    rw [List.nil_append, List.nil_append, h2]

/-- The empty separator yields singleton fragments. -/
theorem splitKeepSep_nil_sep (text : List Char) :
    splitKeepSep [] text = text.map (fun c => [c]) := by
  unfold splitKeepSep
  rw [if_pos rfl]

/-- One `_split_text` level on a short text: either all fragments are short
and merge back into the single stripped chunk, or the text is a single
3000-character fragment that the next level reduces to the same result. -/
theorem level_step (sep : List Char) (hsep : sep ≠ [])
    (next : List Char → List (List Char))
    (hnext : ∀ t, t.length ≤ 3000 → next t = (joinDocs [t]).toList)
    (text : List Char) (hlen : text.length ≤ 3000) :
    processSplits (some next) [] (splitKeepSep sep text) = (joinDocs [text]).toList := by
  by_cases hall : ∀ p ∈ splitKeepSep sep text, p.length < 3000
  · exact processSplits_merge (some next) _ text (splitKeepSep_concat sep text) hlen hall
  · push_neg at hall
    obtain ⟨p, hp, hplen⟩ := hall
    have hple : p.length ≤ text.length := by
      have := length_le_concatL hp
      rwa [splitKeepSep_concat] at this
    have hsingle : splitKeepSep sep text = [p] :=
      eq_single_of_long (fun q hq => splitKeepSep_ne_nil hsep hq) hp
        (by rw [splitKeepSep_concat]; omega)
    have hpt : p = text := by
      have hcc := splitKeepSep_concat sep text
      rw [hsingle, concatL_cons] at hcc
      simpa [concatL] using hcc
    subst hpt
    rw [hsingle]
    rw [show processSplits (some next) [] [p]
        = if p.length < 3000 then processSplits (some next) ([] ++ [p]) []
          else (if ([] : List (List Char)) = [] then [] else mergeSplits [])
            ++ deeperApply (some next) p
            ++ processSplits (some next) [] [] from rfl]
    rw [if_neg (by omega), if_pos rfl]
    rw [show processSplits (some next) ([] : List (List Char)) []
        = (if ([] : List (List Char)) = [] then [] else mergeSplits []) from rfl,
      if_pos rfl]
    rw [show deeperApply (some next) p = next p from rfl, hnext p hlen]
    simp

/-- Model of `_split_text(text, [""])` on a short text: the single stripped chunk. -/
theorem splitTextEmpty_small (text : List Char) (hlen : text.length ≤ 3000) :
    splitTextEmpty text = (joinDocs [text]).toList := by
  unfold splitTextEmpty
  refine processSplits_merge none _ text (splitKeepSep_concat [] text) hlen ?_
  intro p hp
  rw [splitKeepSep_nil_sep] at hp
  obtain ⟨c, -, rfl⟩ := List.mem_map.mp hp
  simp

/-- Model of `_split_text(text, [" ", ""])` on a short text. -/
theorem splitTextSpace_small (text : List Char) (hlen : text.length ≤ 3000) :
    splitTextSpace text = (joinDocs [text]).toList := by
  unfold splitTextSpace
  by_cases h : (splitGo [' '] 0 [] text).length ≠ 1
  · rw [if_pos h]
    exact level_step [' '] (by simp) splitTextEmpty splitTextEmpty_small text hlen
  · rw [if_neg h]
    exact splitTextEmpty_small text hlen

/-- Model of `_split_text(text, ["\n", " ", ""])` on a short text. -/
theorem splitTextNl_small (text : List Char) (hlen : text.length ≤ 3000) :
    splitTextNl text = (joinDocs [text]).toList := by
  unfold splitTextNl
  by_cases h : (splitGo ['\n'] 0 [] text).length ≠ 1
  · rw [if_pos h]
    exact level_step ['\n'] (by simp) splitTextSpace splitTextSpace_small text hlen
  · rw [if_neg h]
    exact splitTextSpace_small text hlen

/-- Model of `split_text` on a short text. -/
theorem splitTextPara_small (text : List Char) (hlen : text.length ≤ 3000) :
    splitTextPara text = (joinDocs [text]).toList := by
  unfold splitTextPara
  by_cases h : (splitGo ['\n','\n'] 0 [] text).length ≠ 1
  · rw [if_pos h]
    exact level_step ['\n','\n'] (by simp) splitTextNl splitTextNl_small text hlen
  · rw [if_neg h]
    exact splitTextNl_small text hlen

/-- The chunker on a short document text: exactly the stripped content, or
nothing when only whitespace remains. -/
theorem split_text_small (s : String) (hlen : s.data.length ≤ 3000) :
    split_text s = if pyStrip s.data = [] then [] else [String.mk (pyStrip s.data)] := by
  unfold split_text
  rw [splitTextPara_small s.data hlen, joinDocs_single]
  by_cases hstrip : pyStrip s.data = []
  · rw [if_pos hstrip, if_pos hstrip]
    rfl
  · rw [if_neg hstrip, if_neg hstrip]
    rfl

/-- C8, counterexample to the claim as stated: the chunker strips whitespace
and drops empty chunks, so a whitespace-only document (length 1 ≤ 3000)
produces no chunk at all instead of one chunk equal to its content. -/
theorem c8_counterexample :
    splitDocuments [⟨" ", "a.py", "id1"⟩] = [] ∧
    splitDocuments [⟨" ", "a.py", "id1"⟩] ≠ [⟨" ", "a.py", "id1"⟩] :=
  ⟨by decide, by decide⟩

/-- C8, amended: a document whose content has length at most the configured
chunk size (3000) yields exactly one chunk carrying the content stripped of
leading and trailing whitespace — equal to the full content whenever the
content neither starts nor ends with whitespace — provided the stripped
content is non-empty; a whitespace-only document yields no chunks. -/
theorem c8_single_chunk (d : Doc) (hlen : d.page_content.data.length ≤ 3000)
    (hne : pyStrip d.page_content.data ≠ []) :
    splitDocuments [d]
      = [{ d with page_content := String.mk (pyStrip d.page_content.data) }] := by
  unfold splitDocuments
  simp only [List.flatMap_cons, List.flatMap_nil, List.append_nil]
  rw [split_text_small d.page_content hlen, if_neg hne]
  rfl

/-- Witness for C8 (amended) on a concrete short document. -/
theorem c8_single_chunk_witness :
    ("hello world" : String).data.length ≤ 3000 ∧
    pyStrip ("hello world" : String).data ≠ [] ∧
    splitDocuments [⟨"hello world", "a.py", "id1"⟩]
      = [{ (⟨"hello world", "a.py", "id1"⟩ : Doc) with
            page_content := String.mk (pyStrip ("hello world" : String).data) }] :=
  ⟨by decide, by decide,
    c8_single_chunk ⟨"hello world", "a.py", "id1"⟩ (by decide) (by decide)⟩

/-! ## C1: ranked order of the search output

The hybrid ranker's `list(set(argsort[::-1]))` collapses the ranking to
ascending index order (`pySetList_argsortDesc`), so the returned sequence is
the corpus-order prefix of the chunk list whatever the scores are.  On the
two-chunk corpus holding the spec's Chunk B before Chunk A, the query
`"quick fox"` gives chunk A a strictly larger combined score than chunk B,
yet the search returns B first. -/

/-- Model of `l2normalize` rescales by a positive factor. -/
theorem l2normalize_smul (vocab : List String) (x : String → ℝ) :
    ∃ c : ℝ, 0 < c ∧ ∀ t, l2normalize vocab x t = c * x t := by
  by_cases h : l2norm vocab x = 0
  · exact ⟨1, one_pos, fun t => by rw [l2normalize, if_pos h, one_mul]⟩
  · have hpos : 0 < l2norm vocab x := lt_of_le_of_ne (Real.sqrt_nonneg _) (Ne.symm h)
    refine ⟨1 / l2norm vocab x, by positivity, fun t => ?_⟩
    rw [l2normalize, if_neg h]
    ring

/-- Inner products scale with their operands. -/
theorem dotOver_smul (vocab : List String) (x y : String → ℝ) (c d : ℝ) :
    dotOver vocab (fun t => c * x t) (fun t => d * y t) = (c * d) * dotOver vocab x y := by
  unfold dotOver
  induction vocab with
  | nil => simp
  | cons a vocab ih =>
    rw [List.map_cons, List.sum_cons, List.map_cons, List.sum_cons, ih]
    ring

/-- The cosine score is a positive multiple of the inner product of the raw
(unnormalized) tf-idf rows; in particular it has the same sign. -/
theorem cosineScoreDoc_scaled (q : String) (docs : List Doc) (d : Doc) :
    ∃ c : ℝ, 0 < c ∧
      cosineScoreDoc q docs d
        = c * dotOver (tfidfVocab docs) (tfidfRawVec docs (analyzeText q))
            (tfidfRawVec docs (analyzeText d.page_content)) := by
  obtain ⟨c1, hc1, h1⟩ :=
    l2normalize_smul (tfidfVocab docs) (tfidfRawVec docs (analyzeText q))
  obtain ⟨c2, hc2, h2⟩ :=
    l2normalize_smul (tfidfVocab docs) (tfidfRawVec docs (analyzeText d.page_content))
  obtain ⟨c3, hc3, h3⟩ := l2normalize_smul (tfidfVocab docs)
    (l2normalize (tfidfVocab docs) (tfidfRawVec docs (analyzeText q)))
  obtain ⟨c4, hc4, h4⟩ := l2normalize_smul (tfidfVocab docs)
    (l2normalize (tfidfVocab docs) (tfidfRawVec docs (analyzeText d.page_content)))
  refine ⟨c3 * c1 * (c4 * c2), by positivity, ?_⟩
  unfold cosineScoreDoc cosineSimilarityVec tfidfQueryRow tfidfDocRow
  have hx : l2normalize (tfidfVocab docs)
      (l2normalize (tfidfVocab docs) (tfidfRawVec docs (analyzeText q)))
      = fun t => (c3 * c1) * tfidfRawVec docs (analyzeText q) t :=
    funext fun t => by rw [h3 t, h1 t]; ring
  have hy : l2normalize (tfidfVocab docs)
      (l2normalize (tfidfVocab docs) (tfidfRawVec docs (analyzeText d.page_content)))
      = fun t => (c4 * c2) * tfidfRawVec docs (analyzeText d.page_content) t :=
    funext fun t => by rw [h4 t, h2 t]; ring
  rw [hx, hy, dotOver_smul]

/-- A term absent from the token list has raw weight zero. -/
theorem tfidfRawVec_eq_zero {docs : List Doc} {toks : List String} {t : String}
    (h : toks.count t = 0) : tfidfRawVec docs toks t = 0 := by
  simp [tfidfRawVec, h]

/-- Raw tf-idf weights are nonnegative: the sublinear term factor is at least
one, and the smoothed idf is at least one because `df ≤ n`. -/
theorem tfidfRawVec_nonneg (docs : List Doc) (toks : List String) (t : String) :
    0 ≤ tfidfRawVec docs toks t := by
  unfold tfidfRawVec
  by_cases hv : t ∈ tfidfVocab docs
  · rw [if_pos hv]
    by_cases hc : toks.count t = 0
    · rw [if_pos hc]
    · rw [if_neg hc]
      apply mul_nonneg
      · have h1 : (1:ℝ) ≤ (toks.count t : ℝ) := by
          exact_mod_cast Nat.one_le_iff_ne_zero.mpr hc
        linarith [Real.log_nonneg h1]
      · unfold tfidfIdfVal
        have hdf : (dfCount docs t : ℝ) ≤ (docs.length : ℝ) := by
          exact_mod_cast List.length_filter_le _ _
        have h2 : (1:ℝ) ≤ (1 + (docs.length : ℝ)) / (1 + (dfCount docs t : ℝ)) := by
          rw [le_div_iff (by positivity)]
          linarith
        linarith [Real.log_nonneg h2]
  · rw [if_neg hv]

/-- A vocabulary term occurring in the token list has strictly positive raw
weight. -/
theorem tfidfRawVec_pos {docs : List Doc} {toks : List String} {t : String}
    (hv : t ∈ tfidfVocab docs) (hc : toks.count t ≠ 0) :
    0 < tfidfRawVec docs toks t := by
  unfold tfidfRawVec
  rw [if_pos hv, if_neg hc]
  apply mul_pos
  · have h1 : (1:ℝ) ≤ (toks.count t : ℝ) := by
      exact_mod_cast Nat.one_le_iff_ne_zero.mpr hc
    have := Real.log_nonneg h1
    linarith
  · unfold tfidfIdfVal
    have hdf : (dfCount docs t : ℝ) ≤ (docs.length : ℝ) := by
      exact_mod_cast List.length_filter_le _ _
    have h2 : (1:ℝ) ≤ (1 + (docs.length : ℝ)) / (1 + (dfCount docs t : ℝ)) := by
      rw [le_div_iff (by positivity)]
      linarith
    have := Real.log_nonneg h2
    linarith

/-- A sum of pointwise-nonnegative products with one positive entry is
positive. -/
theorem dotOver_pos {vocab : List String} {x y : String → ℝ}
    (hnn : ∀ t ∈ vocab, 0 ≤ x t * y t) {t0 : String} (ht0 : t0 ∈ vocab)
    (hpos : 0 < x t0 * y t0) : 0 < dotOver vocab x y := by
  unfold dotOver
  induction vocab with
  | nil => cases ht0
  | cons a vocab ih =>
    rw [List.map_cons, List.sum_cons]
    cases ht0 with
    | head =>
      have hrest : 0 ≤ (vocab.map (fun t => x t * y t)).sum :=
        List.sum_nonneg (by
          intro v hv
          obtain ⟨t, ht, rfl⟩ := List.mem_map.mp hv
          exact hnn t (List.mem_cons_of_mem _ ht))
      linarith
    | tail _ h' =>
      have h1 : 0 ≤ x a * y a := hnn a (List.mem_cons_self _ _)
      have h2 := ih (fun t ht => hnn t (List.mem_cons_of_mem _ ht)) h'
      linarith

/-- Zero pointwise products give a zero inner product. -/
theorem dotOver_eq_zero {vocab : List String} {x y : String → ℝ}
    (h : ∀ t ∈ vocab, x t * y t = 0) : dotOver vocab x y = 0 := by
  unfold dotOver
  apply List.sum_eq_zero
  intro v hv
  obtain ⟨t, ht, rfl⟩ := List.mem_map.mp hv
  exact h t ht

/-- Chunk B of the spec's end-to-end example ("the unrelated chunk"),
deliberately placed first in the corpus. -/
def exB : Doc := ⟨"A completely unrelated sentence about oceans", "b.py", "idb"⟩

/-- Chunk A of the spec's end-to-end example ("the relevant chunk"), placed
second in the corpus. -/
def exA : Doc := ⟨"The quick brown fox jumps", "a.py", "ida"⟩

/-- The two-chunk corpus with the relevant chunk second. -/
def exDocs : List Doc := [exB, exA]

/-- The tokenized corpus of `exDocs`. -/
def exCorpus : List (List String) :=
  [["a", "completely", "unrelated", "sentence", "about", "oceans"],
   ["the", "quick", "brown", "fox", "jumps"]]

/-- The BM25 index over `exDocs`. -/
def exStAB : BM25State := ⟨exCorpus⟩

/-- In a two-document corpus, a term occurring in exactly one document has
raw idf `log(2 - 1 + 0.5) - log(1 + 0.5) = 0`. -/
theorem rawIdf_two_one : rawIdf 2 1 = 0 := by
  unfold rawIdf
  norm_num

/-- Both query terms have BM25 idf zero over the example corpus. -/
theorem exIdf_quick : bm25Idf exCorpus "quick" = 0 := by
  unfold bm25Idf
  rw [if_pos (by decide : "quick" ∈ vocabList exCorpus),
    show ndCount exCorpus "quick" = 1 from by decide,
    show exCorpus.length = 2 from rfl, rawIdf_two_one, if_neg (lt_irrefl 0)]

/-- See `exIdf_quick`. -/
theorem exIdf_fox : bm25Idf exCorpus "fox" = 0 := by
  unfold bm25Idf
  rw [if_pos (by decide : "fox" ∈ vocabList exCorpus),
    show ndCount exCorpus "fox" = 1 from by decide,
    show exCorpus.length = 2 from rfl, rawIdf_two_one, if_neg (lt_irrefl 0)]

/-- Every BM25 score of the query `"quick fox"` over the example corpus is
zero (all idf factors vanish). -/
theorem exBm25_scores :
    get_scores exStAB (clean_and_tokenize "quick fox") = [0, 0] := by
  rw [show clean_and_tokenize "quick fox" = ["quick", "fox"] from by decide]
  show exCorpus.map (bm25DocScore exCorpus ["quick", "fox"]) = [0, 0]
  have hsc : ∀ doc, bm25DocScore exCorpus ["quick", "fox"] doc = 0 := by
    intro doc
    unfold bm25DocScore
    simp [exIdf_quick, exIdf_fox]
  nth_rewrite 2 [show exCorpus = [exCorpus.getD 0 [], exCorpus.getD 1 []] from rfl]
  rw [List.map_cons, List.map_cons, List.map_nil, hsc, hsc]

/-- The cosine score of the query against chunk B is zero: the analyzed query
and chunk B share no vocabulary term. -/
theorem exCos_B : cosineScoreDoc "quick fox" exDocs exB = 0 := by
  obtain ⟨c, hc, heq⟩ := cosineScoreDoc_scaled "quick fox" exDocs exB
  rw [heq]
  have hdot : dotOver (tfidfVocab exDocs) (tfidfRawVec exDocs (analyzeText "quick fox"))
      (tfidfRawVec exDocs (analyzeText exB.page_content)) = 0 := by
    apply dotOver_eq_zero
    intro t ht
    by_cases h1 : t = "quick"
    · subst h1
      rw [tfidfRawVec_eq_zero
        (show (analyzeText exB.page_content).count "quick" = 0 from by decide), mul_zero]
    · by_cases h2 : t = "fox"
      · subst h2
        rw [tfidfRawVec_eq_zero
          (show (analyzeText exB.page_content).count "fox" = 0 from by decide), mul_zero]
      · rw [show analyzeText "quick fox" = ["quick", "fox"] from by decide]
        rw [tfidfRawVec_eq_zero (List.count_eq_zero.mpr (by simp [h1, h2])), zero_mul]
  rw [hdot, mul_zero]

/-- The cosine score of the query against chunk A is strictly positive: the
term `"quick"` occurs in both. -/
theorem exCos_A : 0 < cosineScoreDoc "quick fox" exDocs exA := by
  obtain ⟨c, hc, heq⟩ := cosineScoreDoc_scaled "quick fox" exDocs exA
  rw [heq]
  apply mul_pos hc
  apply dotOver_pos
    (fun t ht => mul_nonneg (tfidfRawVec_nonneg _ _ _) (tfidfRawVec_nonneg _ _ _))
    (show "quick" ∈ tfidfVocab exDocs from by decide)
  exact mul_pos
    (tfidfRawVec_pos (by decide) (by decide))
    (tfidfRawVec_pos (by decide) (by decide))

/-- C1, the code evaluated at the failing input: over the corpus
`[Chunk B, Chunk A]`, the query `"quick fox"` returns Chunk B strictly before
Chunk A even though Chunk A's combined score is strictly larger — the
`set`-based deduplication collapses the ranking to corpus order, so the
returned sequence is not ordered by combined score. -/
theorem c1_rank_order_failure :
    BM25Okapi (exDocs.map (fun d => clean_and_tokenize d.page_content)) = .ok exStAB ∧
    search_documents "quick fox" (some exStAB) exDocs 5 = .ok [exB, exA] ∧
    (combinedScores (get_scores exStAB (clean_and_tokenize "quick fox"))
        (cosineSimScores "quick fox" exDocs)).getD 0 0
      < (combinedScores (get_scores exStAB (clean_and_tokenize "quick fox"))
          (cosineSimScores "quick fox" exDocs)).getD 1 0 := by
  refine ⟨rfl, search_documents_ok "quick fox" exStAB exDocs 5 rfl (by decide), ?_⟩
  rw [exBm25_scores]
  rw [show cosineSimScores "quick fox" exDocs
      = [cosineScoreDoc "quick fox" exDocs exB, cosineScoreDoc "quick fox" exDocs exA]
      from rfl]
  show (0:ℝ) * 0.5 + cosineScoreDoc "quick fox" exDocs exB * 0.5
      < 0 * 0.5 + cosineScoreDoc "quick fox" exDocs exA * 0.5
  rw [exCos_B]
  have := exCos_A
  nlinarith
